import Mathlib

/-!
# Escape-time field renderer (`main.go`)

A verification development for the Mandelbrot renderer.  The program computes
with `float64` and `complex128`; here every floating-point operation is read
as the exact operation it approximates.  The real type is an arbitrary
linearly ordered field `F`, the complex type is a commutative ring `C`
(`cmplx.Pow(acc, 2) + p` is `acc ^ 2 + p`), and the two library functions that
connect them, `cmplx.Abs` and `complex(a, b)`, are passed as the arguments
`cabs` and `cplx`.  Instantiated at `ℝ`, `ℂ`, `Complex.abs` and `Complex.mk`
this is the real-number reading of the program.  The parts that never take a
magnitude (coordinate mapping, colour mapping) are also evaluated over `ℚ`.

Go `int` values (loop counters, grid coordinates, iteration counts) never come
near the machine-word bound in this program and are natural numbers or
integers without wrap-around.
-/

namespace Mandelbrot

/-! ## Data model -/

/-- The package-level configuration variables `fromX, toX, fromY, toY`,
`maxWidth, maxHeight`, `maxIter` and `maxRoutines` (source lines 17-24). -/
structure Config (F : Type) where
  fromX : F
  toX : F
  fromY : F
  toY : F
  maxWidth : ℕ
  maxHeight : ℕ
  maxIter : ℕ
  maxRoutines : ℕ

/-- The values the source assigns to the configuration variables. -/
def defaultConfig (F : Type) [LinearOrderedField F] : Config F where
  fromX := -2.5
  toX := 1.0
  fromY := -2.0
  toY := 2.0
  maxWidth := 1750
  maxHeight := 2000
  maxIter := 60
  maxRoutines := 30

/-- The derived variable `allPixels = maxWidth * maxHeight`. -/
def Config.allPixels {F : Type} (cfg : Config F) : ℕ :=
  cfg.maxWidth * cfg.maxHeight

/-- The struct `position`. -/
structure position where
  X : ℤ
  Y : ℤ
deriving DecidableEq, Repr

/-- The struct `pixelResult` (the embedded `position` is the field `pos`). -/
structure pixelResult (F : Type) where
  pos : position
  InSet : Bool
  Value : F
  Iters : ℕ

/-- A `color.RGBA` value: four bytes. -/
structure RGBA where
  R : ℕ
  G : ℕ
  B : ℕ
  A : ℕ
deriving DecidableEq, Repr

/-! ## Divergence evaluator -/

section Evaluator

variable {F C : Type} [LinearOrderedField F] [CommRing C]

/-- The `for i := 0; i < maxIter; i++` loop of `mandelbrot`, entered with
`n = maxIter - i` rounds still to run, counter `i` and accumulator `acc`. -/
def mandelbrotLoop (cabs : C → F) (maxIter : ℕ) (p : C) : ℕ → ℕ → C → Bool × ℕ × F
  | 0, _, acc => (true, maxIter, cabs acc)
  | n + 1, i, acc =>
    if cabs acc > 2 * 2 then (false, i, cabs acc)
    else mandelbrotLoop cabs maxIter p n (i + 1) (acc ^ 2 + p)

/-- The function `mandelbrot`; the result is `(inSet, iters, val)`. -/
def mandelbrot (cabs : C → F) (maxIter : ℕ) (p : C) : Bool × ℕ × F :=
  mandelbrotLoop cabs maxIter p maxIter 0 0

/-- The accumulator sequence `z_0 = 0`, `z_(j+1) = z_j ^ 2 + p`. -/
def orbit (p : C) : ℕ → C
  | 0 => 0
  | j + 1 => orbit p j ^ 2 + p

end Evaluator

/-! ## Colour mapping -/

section Colour

variable {F : Type} [LinearOrderedField F]

/-- The function `hueToRGB`. -/
def hueToRGB (p q t : F) : F :=
  let t := if t < 0 then t + 1 else t
  let t := if t > 1 then t - 1 else t
  if t < 1.0 / 6.0 then p + (q - p) * 6 * t
  else if t < 1.0 / 2.0 then q
  else if t < 2.0 / 3.0 then p + (q - p) * (2.0 / 3.0 - t) * 6
  else p

/-- The intensities `(r, g, b)` that `hslToRGB` holds just before the
`color.RGBA` literal scales them by 255 (source lines 141-155). -/
def hslIntensities (h s l : F) : F × F × F :=
  if s = 0 then (l, l, l)
  else
    let q := if l < 0.5 then l * (1 + s) else l + s - l * s
    let p := 2 * l - q
    (hueToRGB p q (h + 1.0 / 3.0), hueToRGB p q h, hueToRGB p q (h - 1.0 / 3.0))

/-- The hue `getColor` computes for a result that is not in the set. -/
def hue (r : pixelResult F) : F :=
  0.3 - (r.Iters : F) / 800 * r.Value

/-- The conversion `uint8(x)` of a `float64`: the fraction is discarded
(truncation towards zero).  For a value outside `0..255` Go leaves the result
to the implementation; the low byte of the truncated integer is taken, as the
amd64 compiler does. -/
def toUint8 [FloorRing F] (x : F) : ℕ :=
  ((if 0 ≤ x then ⌊x⌋ else ⌈x⌉) % 256).toNat

/-- The function `hslToRGB`. -/
def hslToRGB [FloorRing F] (h s l : F) : RGBA :=
  let rgb := hslIntensities h s l
  { R := toUint8 (rgb.1 * 255), G := toUint8 (rgb.2.1 * 255), B := toUint8 (rgb.2.2 * 255),
    A := 255 }

/-- The method `pixelResult.getColor`, as the `color.RGBA` that `img.Set`
stores for it (`color.Black` is stored as opaque black). -/
def getColor [FloorRing F] (r : pixelResult F) : RGBA :=
  if r.InSet then { R := 0, G := 0, B := 0, A := 255 }
  else hslToRGB (hue r) 1 0.5

end Colour

/-! ## Coordinate mapping and worker body -/

section Worker

variable {F C : Type} [LinearOrderedField F] [CommRing C]

/-- The pair `(a, b)` a worker computes for a position (source lines 80-84). -/
def planePoint (cfg : Config F) (pos : position) : F × F :=
  let absX := |cfg.fromX| + |cfg.toX|
  let absY := |cfg.fromY| + |cfg.toY|
  let a := cfg.fromX + ((pos.X - 1 : ℤ) : F) * (absX / (cfg.maxWidth : F))
  let b := cfg.fromY + ((pos.Y - 1 : ℤ) : F) * (absY / (cfg.maxHeight : F))
  (a, b)

/-- One round of a worker's `for pos := range inputs` body: the result it
sends for the position it received (source lines 80-91). -/
def worker (cabs : C → F) (cplx : F → F → C) (cfg : Config F) (pos : position) :
    pixelResult F :=
  let ab := planePoint cfg pos
  let r := mandelbrot cabs cfg.maxIter (cplx ab.1 ab.2)
  { pos := pos, InSet := r.1, Value := r.2.2, Iters := r.2.1 }

end Worker

/-! ## Work generator, output buffer and compositor -/

section Generator

variable {F : Type}

/-- The positions the two nested loops of `run` send on `inputs`, in sending
order (source lines 99-103): `x` from 1 below `maxWidth`, and for each `x`,
`y` from 1 below `maxHeight`. -/
def positions (cfg : Config F) : List position :=
  (List.range' 1 (cfg.maxWidth - 1)).flatMap fun (x : ℕ) =>
    (List.range' 1 (cfg.maxHeight - 1)).map fun (y : ℕ) => position.mk (x : ℤ) (y : ℤ)

end Generator

section Pipeline

variable {F C : Type} [LinearOrderedField F] [CommRing C]

/-- An `*image.RGBA` whose bounds are `image.Rect(0, 0, width, height)`. -/
structure Image where
  width : ℕ
  height : ℕ
  pix : position → RGBA

/-- The image `image.NewRGBA(image.Rect(0, 0, w, h))`: every byte is zero. -/
def NewRGBA (w h : ℕ) : Image :=
  { width := w, height := h, pix := fun _ => { R := 0, G := 0, B := 0, A := 0 } }

/-- The method `(*image.RGBA).Set`: a point outside the bounds is ignored. -/
def Image.Set (img : Image) (x y : ℤ) (c : RGBA) : Image :=
  if 0 ≤ x ∧ x < img.width ∧ 0 ≤ y ∧ y < img.height then
    { img with pix := Function.update img.pix { X := x, Y := y } c }
  else img

/-- One round of the compositor's `for result := range results` body. -/
def draw [FloorRing F] (img : Image) (result : pixelResult F) : Image :=
  img.Set result.pos.X result.pos.Y (getColor result)

/-- The compositor goroutine (source lines 68-74) run over the results in the
order `rs` in which they arrive. -/
def compositor [FloorRing F] (img : Image) (rs : List (pixelResult F)) : Image :=
  rs.foldl draw img

/-- The results of all enumerated positions, in enumeration order. -/
def allResults (cabs : C → F) (cplx : F → F → C) (cfg : Config F) : List (pixelResult F) :=
  (positions cfg).map (worker cabs cplx cfg)

/-- The buffer `run` displays when the results arrive in enumeration order
(as with a single worker). -/
def render [FloorRing F] (cabs : C → F) (cplx : F → F → C) (cfg : Config F) : Image :=
  compositor (NewRGBA cfg.maxWidth cfg.maxHeight) (allResults cabs cplx cfg)

/-- The number of `img.Set` calls for the cell `c` that the compositor issues
while it drains the results `rs`. -/
def writeCount (rs : List (pixelResult F)) (c : position) : ℕ :=
  (rs.map fun r => r.pos).count c

end Pipeline

/-! ## The goroutines of `run` as a transition system

`run` starts one compositor goroutine and `maxRoutines` worker goroutines and
then enumerates the positions itself.  Each goroutine is deterministic; the
only freedom is which goroutine takes the next step.  A step is one channel
operation (with the computation that leads up to it), a `close`, or the return
of a `Wait`. -/

section Scheduler

variable {F C : Type} [LinearOrderedField F] [CommRing C]

/-- Where the goroutine that executes `run` stands. -/
inductive MainPc
  /-- In the enumeration loops (source lines 99-103), or about to `close(inputs)`. -/
  | enqueue
  /-- After `close(inputs)`, blocked in `workers.Wait()` (line 106). -/
  | waitWorkers
  /-- Back from `workers.Wait()`, about to `close(results)` (line 109). -/
  | closeResults
  /-- After `close(results)`, blocked in `drawers.Wait()` (line 111). -/
  | waitDrawers
  /-- In the display loop, reading `img` (lines 118-123). -/
  | display
deriving DecidableEq, Repr

/-- Where a worker goroutine stands. -/
inductive WorkerPc (F : Type)
  /-- At `for pos := range inputs`, waiting to receive. -/
  | receive
  /-- At `results <- pixelResult{...}` with the result it computed. -/
  | send (r : pixelResult F)
  /-- After `return nil`. -/
  | returned

/-- Whether the worker goroutine has returned. -/
def WorkerPc.isReturned : WorkerPc F → Bool
  | WorkerPc.returned => true
  | _ => false

/-- The goroutine that takes the next step. -/
inductive Thread
  | main
  | worker (i : ℕ)
  | drawer
deriving DecidableEq, Repr

/-- The state of `run` once all goroutines are started. -/
structure State (F : Type) where
  /-- Program counter of the goroutine executing `run`. -/
  pc : MainPc
  /-- The positions the enumeration loops have not sent yet. -/
  todo : List position
  /-- The content of the channel `inputs`, oldest first. -/
  inputs : List position
  /-- Whether `inputs` is closed. -/
  inputsClosed : Bool
  /-- The content of the channel `results`, oldest first. -/
  results : List (pixelResult F)
  /-- Whether `results` is closed. -/
  resultsClosed : Bool
  /-- The worker goroutines. -/
  workers : List (WorkerPc F)
  /-- Whether the compositor goroutine has returned. -/
  drawerReturned : Bool
  /-- The image `img`. -/
  img : Image
  /-- Whether some goroutine has sent on a closed channel (a run-time panic). -/
  panicked : Bool

/-- The state in which `run` enters the enumeration loops: both channels empty
and open, every worker at its receive, the compositor running. -/
def initState (cfg : Config F) : State F where
  pc := MainPc.enqueue
  todo := positions cfg
  inputs := []
  inputsClosed := false
  results := []
  resultsClosed := false
  workers := List.replicate cfg.maxRoutines WorkerPc.receive
  drawerReturned := false
  img := NewRGBA cfg.maxWidth cfg.maxHeight
  panicked := false

/-- One step of the goroutine executing `run` (source lines 99-123); `none`
when it is blocked.  A send on `inputs` blocks while the buffer holds
`allPixels` elements.  `workers.Wait()` returns once the last goroutine of the
tomb has returned (a tomb without goroutines never dies), and so does
`drawers.Wait()`. -/
def stepMain (cfg : Config F) (s : State F) : Option (State F) :=
  match s.pc with
  | MainPc.enqueue =>
    match s.todo with
    | p :: ps =>
      if s.inputs.length < cfg.allPixels then
        some { s with todo := ps, inputs := s.inputs ++ [p] }
      else none
    | [] => some { s with inputsClosed := true, pc := MainPc.waitWorkers }
  | MainPc.waitWorkers =>
    if !s.workers.isEmpty && s.workers.all WorkerPc.isReturned then
      some { s with pc := MainPc.closeResults }
    else none
  | MainPc.closeResults => some { s with resultsClosed := true, pc := MainPc.waitDrawers }
  | MainPc.waitDrawers =>
    if s.drawerReturned then some { s with pc := MainPc.display } else none
  | MainPc.display => some s

/-- One step of worker goroutine `i` (source lines 78-95); `none` when it is
blocked, has returned, or does not exist. -/
def stepWorker (cabs : C → F) (cplx : F → F → C) (cfg : Config F) (s : State F) (i : ℕ) :
    Option (State F) :=
  match s.workers[i]? with
  | some WorkerPc.receive =>
    match s.inputs with
    | p :: ps =>
      some { s with inputs := ps,
                    workers := s.workers.set i (WorkerPc.send (worker cabs cplx cfg p)) }
    | [] =>
      if s.inputsClosed then some { s with workers := s.workers.set i WorkerPc.returned }
      else none
  | some (WorkerPc.send r) =>
    if s.resultsClosed then some { s with panicked := true }
    else if s.results.length < cfg.allPixels then
      some { s with results := s.results ++ [r], workers := s.workers.set i WorkerPc.receive }
    else none
  | _ => none

/-- One step of the compositor goroutine (source lines 68-74); `none` when it
is blocked or has returned. -/
def stepDrawer [FloorRing F] (s : State F) : Option (State F) :=
  if s.drawerReturned then none
  else
    match s.results with
    | r :: rs => some { s with results := rs, img := draw s.img r }
    | [] => if s.resultsClosed then some { s with drawerReturned := true } else none

/-- One step of the chosen goroutine. -/
def step [FloorRing F] (cabs : C → F) (cplx : F → F → C) (cfg : Config F) (s : State F) :
    Thread → Option (State F)
  | Thread.main => stepMain cfg s
  | Thread.worker i => stepWorker cabs cplx cfg s i
  | Thread.drawer => stepDrawer s

/-- The state after the goroutines take steps in the order `sched`, if each
of them can take its step when chosen. -/
def exec [FloorRing F] (cabs : C → F) (cplx : F → F → C) (cfg : Config F) :
    State F → List Thread → Option (State F)
  | s, [] => some s
  | s, t :: ts => (step cabs cplx cfg s t).bind fun s1 => exec cabs cplx cfg s1 ts

/-- The results that worker goroutines hold and have not sent yet. -/
def held : List (WorkerPc F) → List (pixelResult F)
  | [] => []
  | WorkerPc.send r :: ws => r :: held ws
  | _ :: ws => held ws

/-- The invariant of `run`: how the program counter of the main goroutine, the
two closed flags and the states of the other goroutines hang together, and
where every result is. -/
structure Inv [FloorRing F] (cabs : C → F) (cplx : F → F → C) (cfg : Config F)
    (s : State F) : Prop where
  /-- `inputs` is closed exactly when the enumeration is over. -/
  inputs_closed : s.inputsClosed = true ↔ s.pc ≠ MainPc.enqueue
  /-- After the enumeration no position is left to send. -/
  todo_nil : s.pc ≠ MainPc.enqueue → s.todo = []
  /-- A worker returns only from a closed and drained `inputs`. -/
  returned_drained : ∀ w ∈ s.workers, w.isReturned = true →
    s.inputsClosed = true ∧ s.inputs = []
  /-- Once `workers.Wait()` is over every worker has returned. -/
  after_wait : s.pc = MainPc.closeResults ∨ s.pc = MainPc.waitDrawers ∨ s.pc = MainPc.display →
    s.workers ≠ [] ∧ ∀ w ∈ s.workers, w.isReturned = true
  /-- `results` is closed exactly from `drawers.Wait()` on. -/
  results_closed : s.resultsClosed = true ↔
    (s.pc = MainPc.waitDrawers ∨ s.pc = MainPc.display)
  /-- The compositor returns only from a closed and drained `results`. -/
  drawer_drained : s.drawerReturned = true → s.resultsClosed = true ∧ s.results = []
  /-- The display loop starts only after the compositor has returned. -/
  display_after : s.pc = MainPc.display → s.drawerReturned = true
  /-- No goroutine has sent on a closed channel. -/
  no_panic : s.panicked = false
  /-- Every result is drawn, in `results`, held by a worker, or still to be
  computed from a position in `inputs` or not yet sent. -/
  account : ∃ drained : List (pixelResult F),
    s.img = compositor (NewRGBA cfg.maxWidth cfg.maxHeight) drained ∧
    (drained ++ (s.results ++ (held s.workers ++
      (s.inputs ++ s.todo).map (worker cabs cplx cfg)))).Perm (allResults cabs cplx cfg)

/-- A small configuration for running the transition system: the program's
window on a 3 × 2 buffer (two enumerated positions) with two workers
(`Config.mk` takes `fromX toX fromY toY maxWidth maxHeight maxIter
maxRoutines`). -/
def demoConfig : Config ℝ :=
  Config.mk (-2.5) 1 (-2) 2 3 2 60 2

/-- An interleaving of `run` under `demoConfig` in which the two results reach
the compositor in the reverse of the enumeration order. -/
def demoSchedule : List Thread :=
  [Thread.main, Thread.main, Thread.worker 0, Thread.worker 1, Thread.main, Thread.worker 1,
    Thread.worker 0, Thread.drawer, Thread.worker 0, Thread.worker 1, Thread.main, Thread.drawer,
    Thread.main, Thread.drawer, Thread.main]

end Scheduler

/-! ## Theorems: divergence evaluator -/

section EvaluatorProofs

variable {F C : Type} [LinearOrderedField F] [CommRing C]

/-- Loop invariant of `mandelbrot`: entered at counter `i` with `n` rounds
left, the loop either runs out (`inSet`, `iters = maxIter`) or stops at a
counter in `[i, i + n)`. -/
theorem mandelbrotLoop_iters (cabs : C → F) (maxIter : ℕ) (p : C) :
    ∀ (n i : ℕ) (acc : C), i + n = maxIter →
      ((mandelbrotLoop cabs maxIter p n i acc).1 = true ∧
          (mandelbrotLoop cabs maxIter p n i acc).2.1 = maxIter) ∨
        ((mandelbrotLoop cabs maxIter p n i acc).1 = false ∧
          i ≤ (mandelbrotLoop cabs maxIter p n i acc).2.1 ∧
          (mandelbrotLoop cabs maxIter p n i acc).2.1 < maxIter) := by
  intro n
  induction n with
  | zero => intro i acc _; left; simp [mandelbrotLoop]
  | succ n ih =>
    intro i acc h
    unfold mandelbrotLoop
    split
    · right; refine ⟨rfl, le_refl _, ?_⟩; show i < maxIter; omega
    · rcases ih (i + 1) (acc ^ 2 + p) (by omega) with h1 | ⟨h1, h2, h3⟩
      · left; exact h1
      · right; exact ⟨h1, by omega, h3⟩

/-- C1: for every point `p` and cap `maxIter`, the result `(inSet, iters, val)`
of `mandelbrot` has `iters = maxIter` when `inSet` is true and
`0 ≤ iters < maxIter` when `inSet` is false. -/
theorem mandelbrot_iters_range (cabs : C → F) (maxIter : ℕ) (p : C) :
    ((mandelbrot cabs maxIter p).1 = true → (mandelbrot cabs maxIter p).2.1 = maxIter) ∧
      ((mandelbrot cabs maxIter p).1 = false →
        0 ≤ (mandelbrot cabs maxIter p).2.1 ∧ (mandelbrot cabs maxIter p).2.1 < maxIter) := by
  unfold mandelbrot
  rcases mandelbrotLoop_iters cabs maxIter p maxIter 0 0 (by omega) with ⟨h1, h2⟩ | ⟨h1, _, h3⟩
  · exact ⟨fun _ => h2, fun h => (by rw [h1] at h; cases h)⟩
  · exact ⟨fun h => (by rw [h1] at h; cases h), fun _ => ⟨Nat.zero_le _, h3⟩⟩

/-- The loop entered at counter `i` with the accumulator `z_i`: when no
round in `[i, i + n)` passes the escape test, it runs out and reports the
magnitude of `z_(i + n)`. -/
theorem mandelbrotLoop_no_escape (cabs : C → F) (maxIter : ℕ) (p : C) :
    ∀ (n i : ℕ), (∀ j, i ≤ j → j < i + n → ¬ cabs (orbit p j) > 2 * 2) →
      mandelbrotLoop cabs maxIter p n i (orbit p i) = (true, maxIter, cabs (orbit p (i + n))) := by
  intro n
  induction n with
  | zero => intro i _; simp [mandelbrotLoop]
  | succ n ih =>
    intro i h
    unfold mandelbrotLoop
    rw [if_neg (h i (le_refl _) (by omega))]
    have := ih (i + 1) (fun j h1 h2 => h j (by omega) (by omega))
    rw [show i + (n + 1) = i + 1 + n by omega]
    exact this

/-- The loop entered at counter `i` with the accumulator `z_i`: when `k` is
the first round in `[i, i + n)` that passes the escape test, it stops there
and reports `k` and the magnitude of `z_k`. -/
theorem mandelbrotLoop_escape (cabs : C → F) (maxIter : ℕ) (p : C) (k : ℕ) :
    ∀ (n i : ℕ), i ≤ k → k < i + n → cabs (orbit p k) > 2 * 2 →
      (∀ j, i ≤ j → j < k → ¬ cabs (orbit p j) > 2 * 2) →
      mandelbrotLoop cabs maxIter p n i (orbit p i) = (false, k, cabs (orbit p k)) := by
  intro n
  induction n with
  | zero => intro i h1 h2; omega
  | succ n ih =>
    intro i h1 h2 hk hj
    unfold mandelbrotLoop
    rcases Nat.eq_or_lt_of_le h1 with h | h
    · subst h; rw [if_pos hk]
    · rw [if_neg (hj i (le_refl _) h)]
      exact ih (i + 1) h (by omega) hk (fun j a b => hj j (by omega) b)

/-- What `mandelbrot` computes when some round escapes: with `k` the least
index below `maxIter` whose magnitude exceeds `2 * 2`, the result is
`(false, k, |z_k|)`. -/
theorem mandelbrot_escape (cabs : C → F) (maxIter : ℕ) (p : C) (k : ℕ)
    (hk : k < maxIter) (hesc : cabs (orbit p k) > 2 * 2)
    (hmin : ∀ j, j < k → ¬ cabs (orbit p j) > 2 * 2) :
    mandelbrot cabs maxIter p = (false, k, cabs (orbit p k)) :=
  mandelbrotLoop_escape cabs maxIter p k maxIter 0 (Nat.zero_le _) (by omega) hesc
    (fun j _ h => hmin j h)

/-- What `mandelbrot` computes when no round escapes: the result is
`(true, maxIter, |z_maxIter|)`. -/
theorem mandelbrot_no_escape (cabs : C → F) (maxIter : ℕ) (p : C)
    (h : ∀ j, j < maxIter → ¬ cabs (orbit p j) > 2 * 2) :
    mandelbrot cabs maxIter p = (true, maxIter, cabs (orbit p maxIter)) := by
  have := mandelbrotLoop_no_escape cabs maxIter p maxIter 0 (fun j _ hj => h j (by omega))
  simpa [mandelbrot, orbit] using this

end EvaluatorProofs

/-! ### The evaluator on the real-number reading `ℂ`, `Complex.abs` -/

/-- The accumulator of the origin never leaves the origin. -/
theorem orbit_zero {C : Type} [CommRing C] (j : ℕ) : orbit (0 : C) j = 0 := by
  induction j with
  | zero => rfl
  | succ j ih => simp [orbit, ih]

/-- The magnitude of `3+3i` exceeds the threshold `2 * 2` of the escape test. -/
theorem abs_three_three : Complex.abs (Complex.mk 3 3) > 2 * 2 := by
  rw [Complex.abs_apply, Complex.normSq_mk, gt_iff_lt, Real.lt_sqrt (by norm_num)]
  norm_num

/-- C2, evaluated at the point `-2.5+0i` (the point of grid position
`(1, 1001)`) with the cap 60: the accumulator magnitudes are `0, 5/2, 15/4,
185/16`, so index 1 is the first whose magnitude exceeds the escape radius 2,
yet `mandelbrot` runs on until the magnitude exceeds `2 * 2` and returns
`(false, 3, 185/16)` instead of `(false, 1, 5/2)`. -/
theorem mandelbrot_escape_radius_divergence :
    mandelbrot (fun z : ℂ => Complex.abs z) 60 (-5 / 2) = (false, 3, 185 / 16) ∧
      ¬ Complex.abs (orbit (-5 / 2 : ℂ) 0) > 2 ∧
      Complex.abs (orbit (-5 / 2 : ℂ) 1) > 2 ∧
      Complex.abs (orbit (-5 / 2 : ℂ) 1) = 5 / 2 := by
  have h := mandelbrot_escape (fun z : ℂ => Complex.abs z) 60 (-5 / 2) 3 (by norm_num)
    (by norm_num [orbit]) (by
      intro j hj
      interval_cases j <;> norm_num [orbit])
  rw [h]
  norm_num [orbit]

/-- C3 as stated fails: with the cap 60 the point `3+3i` is reported with
`iters = 1`, not `iters = 0`; the first round tests the magnitude of the
initial accumulator `0`. -/
theorem mandelbrot_three_three_iters_ne_zero :
    mandelbrot (fun z : ℂ => Complex.abs z) 60 (Complex.mk 3 3) =
        (false, 1, Complex.abs (Complex.mk 3 3)) ∧
      (mandelbrot (fun z : ℂ => Complex.abs z) 60 (Complex.mk 3 3)).2.1 ≠ 0 := by
  have h := mandelbrot_escape (fun z : ℂ => Complex.abs z) 60 (Complex.mk 3 3) 1 (by norm_num)
    (by simpa [orbit] using abs_three_three) (by
      intro j hj
      interval_cases j; norm_num [orbit])
  rw [h]
  simp [orbit]

/-- C3, amended: for the point `3+3i` and every cap `maxIter ≥ 1`, `mandelbrot`
returns `iters = 1` and `val = |3+3i|`, the magnitude of the accumulator after
the first round, which the escape check of the second round tests; `inSet` is
false when `maxIter ≥ 2` and true when `maxIter = 1`, where the loop ends
before that check. -/
theorem mandelbrot_three_three (maxIter : ℕ) (h : 1 ≤ maxIter) :
    mandelbrot (fun z : ℂ => Complex.abs z) maxIter (Complex.mk 3 3) =
      (decide (maxIter = 1), 1, Complex.abs (Complex.mk 3 3)) := by
  rcases Nat.eq_or_lt_of_le h with h1 | h1
  · subst h1
    rw [mandelbrot_no_escape _ _ _ (by
      intro j hj
      interval_cases j; norm_num [orbit])]
    simp [orbit]
  · have h2 := mandelbrot_escape (fun z : ℂ => Complex.abs z) maxIter (Complex.mk 3 3) 1 h1
      (by simpa [orbit] using abs_three_three) (by
        intro j hj
        interval_cases j; norm_num [orbit])
    rw [h2]
    have h3 : ¬ maxIter = 1 := by omega
    simp [orbit, h3]

/-- Witness for `mandelbrot_three_three` at the program's cap 60. -/
theorem mandelbrot_three_three_witness :
    1 ≤ 60 ∧ mandelbrot (fun z : ℂ => Complex.abs z) 60 (Complex.mk 3 3) =
      (decide (60 = 1), 1, Complex.abs (Complex.mk 3 3)) :=
  ⟨by norm_num, mandelbrot_three_three 60 (by norm_num)⟩

/-- C4: for the origin `0+0i` and every cap `maxIter`, in particular every
`maxIter ≥ 1`, `mandelbrot` returns `inSet = true` with `iters = maxIter` and
`val = 0`, the accumulator being `0` in every round. -/
theorem mandelbrot_origin (maxIter : ℕ) :
    mandelbrot (fun z : ℂ => Complex.abs z) maxIter 0 = (true, maxIter, 0) ∧
      ∀ j, orbit (0 : ℂ) j = 0 := by
  refine ⟨?_, orbit_zero⟩
  rw [mandelbrot_no_escape _ _ _ (by intro j _; simp [orbit_zero])]
  simp [orbit_zero]

/-! ## Theorems: coordinate mapping -/

section MappingProofs

variable {F : Type} [LinearOrderedField F]

/-- C7 as stated fails: for the window `[1, 2] × [1, 2]` on a `4 × 4` grid
(`Config.mk` takes `fromX toX fromY toY maxWidth maxHeight maxIter
maxRoutines`) the code scales by `|1| + |2| = 3`, not by the span `2 - 1 = 1`,
and maps position `(2, 2)` to `(7/4, 7/4)` instead of `(5/4, 5/4)`. -/
theorem planePoint_span_counterexample :
    planePoint (Config.mk 1 2 1 2 4 4 60 30 : Config ℚ) ⟨2, 2⟩ = (7 / 4, 7 / 4) ∧
      (7 / 4 : ℚ) ≠ 1 + ((2 - 1 : ℤ) : ℚ) * (2 - 1) / ((4 : ℕ) : ℚ) := by
  norm_num [planePoint]

/-- C7, amended: for every window with `xMin ≤ 0 ≤ xMax` and `yMin ≤ 0 ≤ yMax`
(as the program's window `[-2.5, 1] × [-2, 2]`), every width and height and
every grid position `(x, y)`, the worker's point has real part
`xMin + (x - 1) * (xMax - xMin) / width` and imaginary part
`yMin + (y - 1) * (yMax - yMin) / height`. -/
theorem planePoint_eq_span (cfg : Config F) (pos : position)
    (hx0 : cfg.fromX ≤ 0) (hx1 : 0 ≤ cfg.toX) (hy0 : cfg.fromY ≤ 0) (hy1 : 0 ≤ cfg.toY) :
    planePoint cfg pos =
      (cfg.fromX + ((pos.X - 1 : ℤ) : F) * (cfg.toX - cfg.fromX) / (cfg.maxWidth : F),
        cfg.fromY + ((pos.Y - 1 : ℤ) : F) * (cfg.toY - cfg.fromY) / (cfg.maxHeight : F)) := by
  simp only [planePoint, abs_of_nonpos hx0, abs_of_nonneg hx1, abs_of_nonpos hy0,
    abs_of_nonneg hy1]
  congr 1 <;> ring

/-- Witness for `planePoint_eq_span`: the program's configuration and the grid
position `(1, 1001)`, whose point is `-2.5+0i`. -/
theorem planePoint_eq_span_witness :
    (defaultConfig ℚ).fromX ≤ 0 ∧ 0 ≤ (defaultConfig ℚ).toX ∧
      (defaultConfig ℚ).fromY ≤ 0 ∧ 0 ≤ (defaultConfig ℚ).toY ∧
      planePoint (defaultConfig ℚ) ⟨1, 1001⟩ =
        ((defaultConfig ℚ).fromX + ((1 - 1 : ℤ) : ℚ) *
            ((defaultConfig ℚ).toX - (defaultConfig ℚ).fromX) / ((defaultConfig ℚ).maxWidth : ℚ),
          (defaultConfig ℚ).fromY + ((1001 - 1 : ℤ) : ℚ) *
            ((defaultConfig ℚ).toY - (defaultConfig ℚ).fromY) /
              ((defaultConfig ℚ).maxHeight : ℚ)) :=
  ⟨by norm_num [defaultConfig], by norm_num [defaultConfig], by norm_num [defaultConfig],
    by norm_num [defaultConfig],
    planePoint_eq_span (defaultConfig ℚ) ⟨1, 1001⟩ (by norm_num [defaultConfig])
      (by norm_num [defaultConfig]) (by norm_num [defaultConfig]) (by norm_num [defaultConfig])⟩

/-- The point of grid position `(1, 1001)` under the program's configuration
is `-2.5+0i`. -/
theorem planePoint_default_first_column :
    planePoint (defaultConfig ℚ) ⟨1, 1001⟩ = (-5 / 2, 0) := by
  norm_num [planePoint, defaultConfig]

end MappingProofs

/-! ## Theorems: colour mapping -/

section ColourProofs

variable {F : Type} [LinearOrderedField F]

/-- C8: `hueToRGB` is given on `[0, 1]` by its four branch formulas, adjacent
formulas agree at the boundaries `1/6`, `1/2` and `2/3` (with the values `q`,
`q` and `p`), and the values at `t = 0` and `t = 1` are both `p`. -/
theorem hueToRGB_boundaries (p q : F) :
    (∀ t, 0 ≤ t → t < 1 / 6 → hueToRGB p q t = p + (q - p) * 6 * t) ∧
      (∀ t, 1 / 6 ≤ t → t < 1 / 2 → hueToRGB p q t = q) ∧
      (∀ t, 1 / 2 ≤ t → t < 2 / 3 → hueToRGB p q t = p + (q - p) * (2 / 3 - t) * 6) ∧
      (∀ t, 2 / 3 ≤ t → t ≤ 1 → hueToRGB p q t = p) ∧
      (p + (q - p) * 6 * (1 / 6) = q ∧ hueToRGB p q (1 / 6) = q) ∧
      (p + (q - p) * (2 / 3 - 1 / 2) * 6 = q ∧ hueToRGB p q (1 / 2) = q) ∧
      (p + (q - p) * (2 / 3 - 2 / 3) * 6 = p ∧ hueToRGB p q (2 / 3) = p) ∧
      hueToRGB p q 0 = p ∧ hueToRGB p q 1 = p := by
  refine ⟨?_, ?_, ?_, ?_, ⟨by ring, ?_⟩, ⟨by ring, ?_⟩, ⟨by ring, ?_⟩, ?_, ?_⟩
  · intro t h0 h1
    have h2 : ¬ t < 0 := not_lt.mpr h0
    have h3 : ¬ t > 1 := by intro h; linarith
    have h4 : t < 1.0 / 6.0 := by norm_num; linarith
    simp only [hueToRGB, if_neg h2, if_neg h3, if_pos h4]
  · intro t h0 h1
    have h2 : ¬ t < 0 := by intro h; linarith
    have h3 : ¬ t > 1 := by intro h; linarith
    have h4 : ¬ t < 1.0 / 6.0 := by norm_num; linarith
    have h5 : t < 1.0 / 2.0 := by norm_num; linarith
    simp only [hueToRGB, if_neg h2, if_neg h3, if_neg h4, if_pos h5]
  · intro t h0 h1
    have h2 : ¬ t < 0 := by intro h; linarith
    have h3 : ¬ t > 1 := by intro h; linarith
    have h4 : ¬ t < 1.0 / 6.0 := by norm_num; linarith
    have h5 : ¬ t < 1.0 / 2.0 := by norm_num; linarith
    have h6 : t < 2.0 / 3.0 := by norm_num; linarith
    simp only [hueToRGB, if_neg h2, if_neg h3, if_neg h4, if_neg h5, if_pos h6]
    norm_num
  · intro t h0 h1
    have h2 : ¬ t < 0 := by intro h; linarith
    have h3 : ¬ t > 1 := not_lt.mpr h1
    have h4 : ¬ t < 1.0 / 6.0 := by norm_num; linarith
    have h5 : ¬ t < 1.0 / 2.0 := by norm_num; linarith
    have h6 : ¬ t < 2.0 / 3.0 := by norm_num; linarith
    simp only [hueToRGB, if_neg h2, if_neg h3, if_neg h4, if_neg h5, if_neg h6]
  · norm_num [hueToRGB]
  · norm_num [hueToRGB]
    ring
  · norm_num [hueToRGB]
  · norm_num [hueToRGB]
  · norm_num [hueToRGB]

/-- With `p = 0` and `q = 1`, as `getColor` calls it, `hueToRGB` stays within
`[0, 1]` for every `t ≥ -1`. -/
theorem hueToRGB_unit_range (t : F) (h : -1 ≤ t) :
    0 ≤ hueToRGB 0 1 t ∧ hueToRGB 0 1 t ≤ 1 := by
  unfold hueToRGB
  simp only []
  split_ifs <;> constructor <;> norm_num at * <;> linarith

/-- For every hue `h ≥ -2/3` the three intensities of `hslToRGB(h, 1, 0.5)` lie
in `[0, 1]`. -/
theorem hslIntensities_range (h : F) (hh : -2 / 3 ≤ h) :
    (0 ≤ (hslIntensities h 1 0.5).1 ∧ (hslIntensities h 1 0.5).1 ≤ 1) ∧
      (0 ≤ (hslIntensities h 1 0.5).2.1 ∧ (hslIntensities h 1 0.5).2.1 ≤ 1) ∧
      (0 ≤ (hslIntensities h 1 0.5).2.2 ∧ (hslIntensities h 1 0.5).2.2 ≤ 1) := by
  have e : hslIntensities h 1 0.5 =
      (hueToRGB 0 1 (h + 1.0 / 3.0), hueToRGB 0 1 h, hueToRGB 0 1 (h - 1.0 / 3.0)) := by
    norm_num [hslIntensities]
  rw [e]
  exact ⟨hueToRGB_unit_range _ (by norm_num; linarith), hueToRGB_unit_range _ (by linarith),
    hueToRGB_unit_range _ (by norm_num; linarith)⟩

/-- C10, evaluated at the result `InSet = false`, `Iters = 59`, `Value = 16`:
the hue is `-22/25`, and the blue intensity `hslToRGB` computes from it is
`-32/25`, below 0. -/
theorem getColor_blue_negative :
    hue ({ pos := ⟨1, 1⟩, InSet := false, Value := 16, Iters := 59 } : pixelResult ℚ) =
        -22 / 25 ∧
      hslIntensities
          (hue ({ pos := ⟨1, 1⟩, InSet := false, Value := 16, Iters := 59 } : pixelResult ℚ))
          1 0.5 = (1, 18 / 25, -32 / 25) ∧
      ¬ (0 : ℚ) ≤ -32 / 25 := by
  norm_num [hue, hslIntensities, hueToRGB]

end ColourProofs

/-! ## Theorems: work generator and compositor -/

section GeneratorProofs

variable {F : Type}

/-- The enumerated positions are the cells of `[1, maxWidth) × [1, maxHeight)`. -/
theorem mem_positions (cfg : Config F) (c : position) :
    c ∈ positions cfg ↔
      1 ≤ c.X ∧ c.X < cfg.maxWidth ∧ 1 ≤ c.Y ∧ c.Y < cfg.maxHeight := by
  obtain ⟨cx, cy⟩ := c
  simp only [positions, List.mem_flatMap, List.mem_map, List.mem_range'_1, position.mk.injEq]
  constructor
  · rintro ⟨x, hx, y, hy, rfl, rfl⟩
    omega
  · rintro ⟨h1, h2, h3, h4⟩
    exact ⟨cx.toNat, by omega, cy.toNat, by omega, by omega, by omega⟩

/-- No position is enumerated twice. -/
theorem positions_nodup (cfg : Config F) : (positions cfg).Nodup := by
  unfold positions
  rw [List.nodup_flatMap]
  refine ⟨fun x _ => ?_, ?_⟩
  · refine List.Nodup.map ?_ (List.nodup_range' _ _)
    intro a b h
    simpa using h
  · refine List.Pairwise.imp_of_mem ?_ (List.nodup_range' 1 (cfg.maxWidth - 1))
    intro a b _ _ hab
    simp only [Function.onFun, List.disjoint_left, List.mem_map, not_exists, not_and]
    rintro c ⟨y, _, rfl⟩ y2 _ h
    simp only [position.mk.injEq, Nat.cast_inj] at h
    exact hab h.1.symm

end GeneratorProofs

section PipelineProofs

variable {F C : Type} [LinearOrderedField F] [CommRing C]

/-- A worker's result carries the position it was computed for. -/
theorem worker_pos (cabs : C → F) (cplx : F → F → C) (cfg : Config F) (pos : position) :
    (worker cabs cplx cfg pos).pos = pos := rfl

/-- Every result in the list of all results is the worker's result for its
own position. -/
theorem eq_worker_of_mem_allResults (cabs : C → F) (cplx : F → F → C) (cfg : Config F)
    (r : pixelResult F) (h : r ∈ allResults cabs cplx cfg) :
    r = worker cabs cplx cfg r.pos := by
  simp only [allResults, List.mem_map] at h
  obtain ⟨c, _, rfl⟩ := h
  rfl

/-- The positions of all results are the enumerated positions. -/
theorem allResults_map_pos (cabs : C → F) (cplx : F → F → C) (cfg : Config F) :
    (allResults cabs cplx cfg).map (fun r => r.pos) = positions cfg := by
  simp only [allResults, List.map_map]
  conv_rhs => rw [← List.map_id (positions cfg)]
  rfl

/-- Each cell of `[1, maxWidth) × [1, maxHeight)` is written once and every
other cell is never written. -/
theorem writeCount_allResults (cabs : C → F) (cplx : F → F → C) (cfg : Config F)
    (c : position) :
    writeCount (allResults cabs cplx cfg) c =
      if 1 ≤ c.X ∧ c.X < cfg.maxWidth ∧ 1 ≤ c.Y ∧ c.Y < cfg.maxHeight then 1 else 0 := by
  rw [writeCount, allResults_map_pos]
  split_ifs with h
  · exact List.count_eq_one_of_mem (positions_nodup cfg) ((mem_positions cfg c).mpr h)
  · exact List.count_eq_zero_of_not_mem (fun hm => h ((mem_positions cfg c).mp hm))

variable [FloorRing F]

/-- Two compositor writes commute unless they are different writes to the same
cell. -/
theorem draw_comm (img : Image) (r1 r2 : pixelResult F) (h : r1.pos = r2.pos → r1 = r2) :
    draw (draw img r1) r2 = draw (draw img r2) r1 := by
  by_cases he : r1 = r2
  · rw [he]
  · have hne : r1.pos ≠ r2.pos := fun hp => he (h hp)
    have hne2 : position.mk r1.pos.X r1.pos.Y ≠ position.mk r2.pos.X r2.pos.Y := hne
    unfold draw Image.Set
    by_cases h1 : 0 ≤ r1.pos.X ∧ r1.pos.X < img.width ∧ 0 ≤ r1.pos.Y ∧ r1.pos.Y < img.height <;>
      by_cases h2 : 0 ≤ r2.pos.X ∧ r2.pos.X < img.width ∧ 0 ≤ r2.pos.Y ∧ r2.pos.Y < img.height <;>
      simp [h1, h2, Function.update_comm hne2]

/-- A cell that no drained result addresses keeps its content. -/
theorem compositor_pix_of_not_mem (rs : List (pixelResult F)) :
    ∀ (img : Image) (c : position), c ∉ rs.map (fun r => r.pos) →
      (compositor img rs).pix c = img.pix c := by
  induction rs with
  | nil => intro img c _; rfl
  | cons r rs ih =>
    intro img c h
    simp only [List.map_cons, List.mem_cons, not_or] at h
    have hc : c ≠ position.mk r.pos.X r.pos.Y := h.1
    show (compositor (draw img r) rs).pix c = img.pix c
    rw [ih _ c h.2]
    unfold draw Image.Set
    split_ifs
    · simp [Function.update_noteq hc]
    · rfl

/-- Draining two arrangements of the same results yields the same buffer when
results for the same cell are equal. -/
theorem compositor_perm (img : Image) {l1 l2 : List (pixelResult F)} (h : l1.Perm l2)
    (hl : ∀ x ∈ l1, ∀ y ∈ l1, x.pos = y.pos → x = y) :
    compositor img l1 = compositor img l2 := by
  unfold compositor
  exact List.Perm.foldl_eq' h (fun x hx y hy z => draw_comm z x y (hl x hx y hy)) img

/-- C6: the buffer the compositor produces does not depend on the order in
which the results arrive: draining any permutation `rs` of the results of all
enumerated positions yields the same buffer as draining them in enumeration
order. -/
theorem compositor_order_independent (cabs : C → F) (cplx : F → F → C) (cfg : Config F)
    (img : Image) (rs : List (pixelResult F)) (h : rs.Perm (allResults cabs cplx cfg)) :
    compositor img rs = compositor img (allResults cabs cplx cfg) := by
  refine (compositor_perm img h.symm ?_).symm
  intro x hx y hy hp
  rw [eq_worker_of_mem_allResults cabs cplx cfg x hx,
    eq_worker_of_mem_allResults cabs cplx cfg y hy, hp]

/-- A cell outside the enumerated positions still holds the zero bytes of the
fresh image after `render`. -/
theorem render_pix_of_not_mem (cabs : C → F) (cplx : F → F → C) (cfg : Config F)
    (c : position) (h : c ∉ positions cfg) :
    (render cabs cplx cfg).pix c = RGBA.mk 0 0 0 0 := by
  have h2 : c ∉ (allResults cabs cplx cfg).map (fun r => r.pos) := by
    rw [allResults_map_pos]
    exact h
  have h3 := compositor_pix_of_not_mem (allResults cabs cplx cfg)
    (NewRGBA cfg.maxWidth cfg.maxHeight) c h2
  exact h3

end PipelineProofs

/-! ## Theorems: shutdown order of the goroutines -/

section HeldProofs

variable {F : Type}

/-- A worker that moves from its receive to its send adds its result to the
held results. -/
theorem held_set_send (r : pixelResult F) :
    ∀ (ws : List (WorkerPc F)) (i : ℕ), ws[i]? = some WorkerPc.receive →
      (held (ws.set i (WorkerPc.send r))).Perm (r :: held ws) := by
  intro ws
  induction ws with
  | nil => intro i h; simp at h
  | cons w ws ih =>
    intro i h
    cases i with
    | zero =>
      simp only [List.getElem?_cons_zero, Option.some.injEq] at h
      subst h
      simp [held]
    | succ i =>
      simp only [List.getElem?_cons_succ] at h
      cases w with
      | receive => simpa [held] using ih i h
      | returned => simpa [held] using ih i h
      | send r2 =>
        simp only [List.set_cons_succ, held]
        exact ((ih i h).cons r2).trans (List.Perm.swap r r2 _)

/-- A worker that moves from its send back to its receive removes its result
from the held results. -/
theorem held_set_receive (r : pixelResult F) :
    ∀ (ws : List (WorkerPc F)) (i : ℕ), ws[i]? = some (WorkerPc.send r) →
      (r :: held (ws.set i WorkerPc.receive)).Perm (held ws) := by
  intro ws
  induction ws with
  | nil => intro i h; simp at h
  | cons w ws ih =>
    intro i h
    cases i with
    | zero =>
      simp only [List.getElem?_cons_zero, Option.some.injEq] at h
      subst h
      simp [held]
    | succ i =>
      simp only [List.getElem?_cons_succ] at h
      cases w with
      | receive => simpa [held] using ih i h
      | returned => simpa [held] using ih i h
      | send r2 =>
        simp only [List.set_cons_succ, held]
        exact (List.Perm.swap r2 r _).trans ((ih i h).cons r2)

/-- A worker that returns from its receive leaves the held results as they are. -/
theorem held_set_returned :
    ∀ (ws : List (WorkerPc F)) (i : ℕ), ws[i]? = some WorkerPc.receive →
      held (ws.set i WorkerPc.returned) = held ws := by
  intro ws
  induction ws with
  | nil => intro i h; simp at h
  | cons w ws ih =>
    intro i h
    cases i with
    | zero =>
      simp only [List.getElem?_cons_zero, Option.some.injEq] at h
      subst h
      simp [held]
    | succ i =>
      simp only [List.getElem?_cons_succ] at h
      cases w with
      | receive => simpa [held] using ih i h
      | returned => simpa [held] using ih i h
      | send r2 => simp only [List.set_cons_succ, held, ih i h]

/-- When every worker has returned, no result is held. -/
theorem held_eq_nil (ws : List (WorkerPc F)) (h : ∀ w ∈ ws, w.isReturned = true) :
    held ws = [] := by
  induction ws with
  | nil => rfl
  | cons w ws ih =>
    have hw := h w (List.mem_cons_self _ _)
    cases w with
    | receive => simp [WorkerPc.isReturned] at hw
    | send r => simp [WorkerPc.isReturned] at hw
    | returned => simpa [held] using ih (fun w2 h2 => h w2 (List.mem_cons_of_mem _ h2))

end HeldProofs

section SchedulerProofs

variable {F C : Type} [LinearOrderedField F] [CommRing C] [FloorRing F]

/-- The invariant holds when `run` enters the enumeration loops. -/
theorem inv_initState (cabs : C → F) (cplx : F → F → C) (cfg : Config F) :
    Inv cabs cplx cfg (initState cfg) where
  inputs_closed := by simp [initState]
  todo_nil := by simp [initState]
  returned_drained := by
    intro w hw h
    rw [initState, List.mem_replicate] at hw
    rw [hw.2] at h
    simp [WorkerPc.isReturned] at h
  after_wait := by simp [initState]
  results_closed := by simp [initState]
  drawer_drained := by simp [initState]
  display_after := by simp [initState]
  no_panic := rfl
  account := by
    refine ⟨[], rfl, ?_⟩
    have h : held (List.replicate cfg.maxRoutines (WorkerPc.receive : WorkerPc F)) = [] := by
      induction cfg.maxRoutines with
      | zero => rfl
      | succ n ih => simpa [List.replicate_succ, held] using ih
    simp [initState, h, allResults]

/-- A step of the main goroutine preserves the invariant. -/
theorem inv_stepMain (cabs : C → F) (cplx : F → F → C) (cfg : Config F) (s t : State F)
    (hs : Inv cabs cplx cfg s) (h : stepMain cfg s = some t) : Inv cabs cplx cfg t := by
  obtain ⟨i1, i2, i3, i4, i5, i6, i7, i8, i9⟩ := hs
  unfold stepMain at h
  split at h
  · rename_i hpc
    split at h
    · rename_i p ps htodo
      split at h
      · simp only [Option.some.injEq] at h
        subst h
        refine ⟨by simpa using i1, by simp [hpc], ?_, by simp [hpc], by simpa using i5,
          by simpa using i6, by simp [hpc], i8, ?_⟩
        · intro w hw hr
          have := (i3 w hw hr).1
          rw [i1] at this
          exact absurd hpc this
        · obtain ⟨d, hd1, hd2⟩ := i9
          refine ⟨d, hd1, ?_⟩
          simpa [htodo] using hd2
      · cases h
    · rename_i htodo
      simp only [Option.some.injEq] at h
      subst h
      refine ⟨by simp, by simp [htodo], ?_, by simp, ?_, ?_, by simp, i8, ?_⟩
      · intro w hw hr
        exact ⟨rfl, (i3 w hw hr).2⟩
      · have := i5
        simp [hpc] at this
        simp [this]
      · intro hd
        have := (i6 hd).1
        rw [i5] at this
        simp [hpc] at this
      · simpa using i9
  · rename_i hpc
    split at h
    · rename_i hall
      simp only [Option.some.injEq] at h
      subst h
      refine ⟨by simpa [hpc] using i1, by simpa [hpc] using i2, i3, ?_, ?_, i6, by simp, i8, i9⟩
      · intro _
        simp only [Bool.and_eq_true, Bool.not_eq_true', List.isEmpty_eq_false,
          List.all_eq_true] at hall
        exact hall
      · have := i5
        simp [hpc] at this
        simp [this]
    · cases h
  · rename_i hpc
    simp only [Option.some.injEq] at h
    subst h
    refine ⟨by simpa [hpc] using i1, by simpa [hpc] using i2, i3, ?_, by simp, ?_, by simp, i8,
      i9⟩
    · intro _
      exact i4 (Or.inl hpc)
    · intro hd
      have := (i6 hd).1
      rw [i5] at this
      simp [hpc] at this
  · rename_i hpc
    split at h
    · rename_i hd
      simp only [Option.some.injEq] at h
      subst h
      refine ⟨by simpa [hpc] using i1, by simpa [hpc] using i2, i3, ?_, ?_, i6, ?_, i8, i9⟩
      · intro _
        exact i4 (Or.inr (Or.inl hpc))
      · have := i5
        simp [hpc] at this
        simp [this]
      · intro _
        exact hd
    · cases h
  · simp only [Option.some.injEq] at h
    subst h
    exact ⟨i1, i2, i3, i4, i5, i6, i7, i8, i9⟩

/-- A step of a worker goroutine preserves the invariant. -/
theorem inv_stepWorker (cabs : C → F) (cplx : F → F → C) (cfg : Config F) (s t : State F)
    (i : ℕ) (hs : Inv cabs cplx cfg s) (h : stepWorker cabs cplx cfg s i = some t) :
    Inv cabs cplx cfg t := by
  obtain ⟨i1, i2, i3, i4, i5, i6, i7, i8, i9⟩ := hs
  unfold stepWorker at h
  split at h
  · rename_i hw
    have hmem : WorkerPc.receive ∈ s.workers := List.getElem?_mem hw
    have hpc : ¬ (s.pc = MainPc.closeResults ∨ s.pc = MainPc.waitDrawers ∨
        s.pc = MainPc.display) := by
      intro hp
      have := (i4 hp).2 _ hmem
      simp [WorkerPc.isReturned] at this
    split at h
    · rename_i p ps hin
      simp only [Option.some.injEq] at h
      subst h
      refine ⟨i1, i2, ?_, fun hp => absurd hp hpc, i5, i6, i7, i8, ?_⟩
      · intro w hw2 hr
        rcases List.mem_or_eq_of_mem_set hw2 with h1 | h1
        · have := (i3 w h1 hr).2
          rw [hin] at this
          cases this
        · rw [h1] at hr
          simp [WorkerPc.isReturned] at hr
      · obtain ⟨d, hd1, hd2⟩ := i9
        refine ⟨d, hd1, ?_⟩
        refine List.Perm.trans ?_ hd2
        refine List.Perm.append_left _ (List.Perm.append_left _ ?_)
        simp only [hin, List.cons_append, List.map_cons]
        refine List.Perm.trans (List.Perm.append_right _ (held_set_send _ _ _ hw)) ?_
        simp only [List.cons_append]
        exact List.perm_middle.symm
    · rename_i hin
      split at h
      · rename_i hclosed
        simp only [Option.some.injEq] at h
        subst h
        refine ⟨i1, i2, ?_, fun hp => absurd hp hpc, i5, i6, i7, i8, ?_⟩
        · intro w _ _
          exact ⟨hclosed, hin⟩
        · obtain ⟨d, hd1, hd2⟩ := i9
          refine ⟨d, hd1, ?_⟩
          simp only [held_set_returned _ _ hw]
          exact hd2
      · cases h
  · rename_i r hw
    have hmem : WorkerPc.send r ∈ s.workers := List.getElem?_mem hw
    have hpc : ¬ (s.pc = MainPc.closeResults ∨ s.pc = MainPc.waitDrawers ∨
        s.pc = MainPc.display) := by
      intro hp
      have := (i4 hp).2 _ hmem
      simp [WorkerPc.isReturned] at this
    split at h
    · rename_i hclosed
      exact absurd (Or.inr (i5.mp hclosed)) hpc
    · rename_i hopen
      split at h
      · simp only [Option.some.injEq] at h
        subst h
        refine ⟨i1, i2, ?_, fun hp => absurd hp hpc, i5, ?_, i7, i8, ?_⟩
        · intro w hw2 hr
          rcases List.mem_or_eq_of_mem_set hw2 with h1 | h1
          · exact i3 w h1 hr
          · rw [h1] at hr
            simp [WorkerPc.isReturned] at hr
        · intro hd
          exact absurd (i6 hd).1 hopen
        · obtain ⟨d, hd1, hd2⟩ := i9
          refine ⟨d, hd1, ?_⟩
          refine List.Perm.trans ?_ hd2
          refine List.Perm.append_left _ ?_
          simp only [List.append_assoc, List.singleton_append]
          refine List.Perm.append_left _ ?_
          have := held_set_receive r _ _ hw
          exact List.Perm.append_right _ this
      · cases h
  · cases h

/-- A step of the compositor goroutine preserves the invariant. -/
theorem inv_stepDrawer (cabs : C → F) (cplx : F → F → C) (cfg : Config F) (s t : State F)
    (hs : Inv cabs cplx cfg s) (h : stepDrawer s = some t) : Inv cabs cplx cfg t := by
  obtain ⟨i1, i2, i3, i4, i5, i6, i7, i8, i9⟩ := hs
  unfold stepDrawer at h
  split at h
  · cases h
  · rename_i hrun
    split at h
    · rename_i r rs hres
      simp only [Option.some.injEq] at h
      subst h
      refine ⟨i1, i2, i3, i4, i5, fun hd => absurd hd hrun, ?_, i8, ?_⟩
      · intro hp
        exact absurd (i7 hp) hrun
      · obtain ⟨d, hd1, hd2⟩ := i9
        refine ⟨d ++ [r], ?_, ?_⟩
        · simp only [compositor, List.foldl_append, List.foldl_cons, List.foldl_nil]
          rw [hd1]
          rfl
        · simpa [hres] using hd2
    · rename_i hres
      split at h
      · rename_i hclosed
        simp only [Option.some.injEq] at h
        subst h
        exact ⟨i1, i2, i3, i4, i5, fun _ => ⟨hclosed, hres⟩, fun _ => rfl, i8, i9⟩
      · cases h

/-- The invariant holds in every state a schedule reaches from a state that
satisfies it. -/
theorem inv_exec (cabs : C → F) (cplx : F → F → C) (cfg : Config F) (sched : List Thread) :
    ∀ (s t : State F), Inv cabs cplx cfg s → exec cabs cplx cfg s sched = some t →
      Inv cabs cplx cfg t := by
  induction sched with
  | nil =>
    intro s t hs h
    simp only [exec, Option.some.injEq] at h
    exact h ▸ hs
  | cons th ths ih =>
    intro s t hs h
    simp only [exec, Option.bind_eq_some] at h
    obtain ⟨s1, h1, h2⟩ := h
    refine ih s1 t ?_ h2
    cases th with
    | main => exact inv_stepMain cabs cplx cfg s s1 hs h1
    | worker i => exact inv_stepWorker cabs cplx cfg s s1 i hs h1
    | drawer => exact inv_stepDrawer cabs cplx cfg s s1 hs h1

/-- A state that satisfies the invariant and stands in the display loop has
every result drawn: its image is the buffer `render` computes. -/
theorem inv_display (cabs : C → F) (cplx : F → F → C) (cfg : Config F) (s : State F)
    (hs : Inv cabs cplx cfg s) (hpc : s.pc = MainPc.display) :
    s.drawerReturned = true ∧ s.results = [] ∧ s.img = render cabs cplx cfg := by
  obtain ⟨_, i2, i3, i4, _, i6, i7, _, i9⟩ := hs
  have hd := i7 hpc
  have hres := (i6 hd).2
  have hw := i4 (Or.inr (Or.inr hpc))
  have hheld := held_eq_nil _ hw.2
  obtain ⟨w, hwm⟩ := List.exists_mem_of_ne_nil _ hw.1
  have hin := (i3 w hwm (hw.2 w hwm)).2
  have htodo := i2 (by rw [hpc]; decide)
  obtain ⟨d, hd1, hd2⟩ := i9
  refine ⟨hd, hres, ?_⟩
  rw [hres, hheld, hin, htodo] at hd2
  simp only [List.append_nil, List.map_nil] at hd2
  rw [hd1]
  refine (compositor_perm (NewRGBA cfg.maxWidth cfg.maxHeight) hd2.symm ?_).symm
  intro x hx y hy hp
  rw [eq_worker_of_mem_allResults cabs cplx cfg x hx,
    eq_worker_of_mem_allResults cabs cplx cfg y hy, hp]

/-- C9: in every state that any interleaving of the goroutines of `run`
reaches, `results` is closed only when every worker has returned, `inputs` is
closed only when no position is left to send, no worker holds an unsent result
once `results` is closed and no send on a closed channel has happened, and the
display loop reads `img` only when the compositor has returned with every
result drawn, so that `img` is the buffer `render` computes. -/
theorem run_shutdown_order (cabs : C → F) (cplx : F → F → C) (cfg : Config F)
    (sched : List Thread) (s : State F)
    (h : exec cabs cplx cfg (initState cfg) sched = some s) :
    (s.resultsClosed = true → ∀ w ∈ s.workers, w.isReturned = true) ∧
      (s.inputsClosed = true → s.todo = []) ∧
      (s.resultsClosed = true → held s.workers = []) ∧
      s.panicked = false ∧
      (s.pc = MainPc.display →
        s.drawerReturned = true ∧ s.results = [] ∧ s.img = render cabs cplx cfg) := by
  have hinv := inv_exec cabs cplx cfg sched _ s (inv_initState cabs cplx cfg) h
  have hret : s.resultsClosed = true → ∀ w ∈ s.workers, w.isReturned = true :=
    fun hc => (hinv.after_wait (Or.inr (hinv.results_closed.mp hc))).2
  exact ⟨hret, fun hc => hinv.todo_nil (hinv.inputs_closed.mp hc),
    fun hc => held_eq_nil _ (hret hc), hinv.no_panic, inv_display cabs cplx cfg s hinv⟩

/-- Runs of the same configuration with any two worker counts that reach the
display loop show the same image. -/
theorem run_image_worker_count (cabs : C → F) (cplx : F → F → C) (cfg : Config F) (n m : ℕ)
    (sched1 sched2 : List Thread) (s1 s2 : State F)
    (h1 : exec cabs cplx { cfg with maxRoutines := n } (initState { cfg with maxRoutines := n })
      sched1 = some s1)
    (h2 : exec cabs cplx { cfg with maxRoutines := m } (initState { cfg with maxRoutines := m })
      sched2 = some s2)
    (hp1 : s1.pc = MainPc.display) (hp2 : s2.pc = MainPc.display) : s1.img = s2.img := by
  have e1 := (inv_display cabs cplx _ s1
    (inv_exec cabs cplx _ sched1 _ s1 (inv_initState cabs cplx _) h1) hp1).2.2
  have e2 := (inv_display cabs cplx _ s2
    (inv_exec cabs cplx _ sched2 _ s2 (inv_initState cabs cplx _) h2) hp2).2.2
  rw [e1, e2]
  rfl

/-! ### A complete run exists -/

/-- The number of enumerated positions. -/
theorem positions_length {F : Type} (cfg : Config F) :
    (positions cfg).length = (cfg.maxWidth - 1) * (cfg.maxHeight - 1) := by
  simp [positions, List.length_flatMap, Function.comp_def]

/-- Running a schedule in two parts. -/
theorem exec_append (cabs : C → F) (cplx : F → F → C) (cfg : Config F) (a b : List Thread) :
    ∀ s : State F, exec cabs cplx cfg s (a ++ b) =
      (exec cabs cplx cfg s a).bind fun s1 => exec cabs cplx cfg s1 b := by
  induction a with
  | nil => intro s; rfl
  | cons t ts ih =>
    intro s
    simp only [List.cons_append, exec]
    cases step cabs cplx cfg s t with
    | none => rfl
    | some s1 => simpa using ih s1

/-- The main goroutine alone sends every position when the buffer of `inputs`
has room for them. -/
theorem exec_enqueue (cabs : C → F) (cplx : F → F → C) (cfg : Config F)
    (ws : List (WorkerPc F)) (img : Image) :
    ∀ (ps ins : List position), ins.length + ps.length ≤ cfg.allPixels →
      exec cabs cplx cfg (State.mk MainPc.enqueue ps ins false [] false ws false img false)
          (List.replicate ps.length Thread.main) =
        some (State.mk MainPc.enqueue [] (ins ++ ps) false [] false ws false img false) := by
  intro ps
  induction ps with
  | nil => intro ins _; simp [exec]
  | cons p ps ih =>
    intro ins h
    have h1 : ins.length < cfg.allPixels := by simp at h; omega
    simp only [List.length_cons, List.replicate_succ, exec, step, stepMain, if_pos h1,
      Option.some_bind]
    rw [ih (ins ++ [p]) (by simp at h ⊢; omega)]
    simp

/-- Worker 0 and the compositor alone process every position in `inputs`:
receive, send, draw, one position after the other. -/
theorem exec_work (cabs : C → F) (cplx : F → F → C) (cfg : Config F)
    (ws : List (WorkerPc F)) :
    ∀ (ps : List position) (img : Image), ps.length ≤ cfg.allPixels →
      exec cabs cplx cfg
          (State.mk MainPc.waitWorkers [] ps true [] false (WorkerPc.receive :: ws) false img false)
          (ps.flatMap fun _ => [Thread.worker 0, Thread.worker 0, Thread.drawer]) =
        some (State.mk MainPc.waitWorkers [] [] true [] false (WorkerPc.receive :: ws) false
          (compositor img (ps.map (worker cabs cplx cfg))) false) := by
  intro ps
  induction ps with
  | nil => intro img _; simp [exec, compositor]
  | cons p ps ih =>
    intro img h
    have h1 : 0 < cfg.allPixels := by simp at h; omega
    rw [List.flatMap_cons]
    simp only [List.cons_append, List.nil_append]
    simp only [exec, step, stepWorker, stepDrawer, List.getElem?_cons_zero, List.set_cons_zero,
      Option.some_bind, Bool.false_eq_true, if_false, List.length_nil, if_pos h1,
      List.nil_append]
    rw [ih _ (by simp at h; omega)]
    simp [compositor]

/-- With `inputs` closed and drained the workers return one after the other. -/
theorem exec_return (cabs : C → F) (cplx : F → F → C) (cfg : Config F) (img : Image) :
    ∀ (n : ℕ) (done : List (WorkerPc F)),
      exec cabs cplx cfg
          (State.mk MainPc.waitWorkers [] [] true [] false
            (done ++ List.replicate n WorkerPc.receive) false img false)
          ((List.range' done.length n).map Thread.worker) =
        some (State.mk MainPc.waitWorkers [] [] true [] false
          (done ++ List.replicate n WorkerPc.returned) false img false) := by
  intro n
  induction n with
  | zero => intro done; simp [exec]
  | succ n ih =>
    intro done
    have hget : (done ++ WorkerPc.receive :: List.replicate n (WorkerPc.receive : WorkerPc F))[
        done.length]? = some WorkerPc.receive := by
      rw [List.getElem?_append_right (le_refl _)]
      simp
    have hset : (done ++ WorkerPc.receive :: List.replicate n (WorkerPc.receive : WorkerPc F)).set
        done.length WorkerPc.returned =
        (done ++ [WorkerPc.returned]) ++ List.replicate n WorkerPc.receive := by
      simp
    simp only [List.range'_succ, List.map_cons, List.replicate_succ, exec, step, stepWorker,
      hget, hset, if_true, Option.some_bind]
    have := ih (done ++ [WorkerPc.returned])
    simp only [List.length_append, List.length_singleton] at this
    rw [this]
    simp

/-- With every worker returned and `results` drained, the main goroutine
closes `results`, the compositor returns and the display loop starts. -/
theorem exec_shutdown (cabs : C → F) (cplx : F → F → C) (cfg : Config F) (img : Image)
    (n : ℕ) :
    exec cabs cplx cfg
        (State.mk MainPc.waitWorkers [] [] true [] false
          (List.replicate (n + 1) WorkerPc.returned) false img false)
        [Thread.main, Thread.main, Thread.drawer, Thread.main] =
      some (State.mk MainPc.display [] [] true [] true
        (List.replicate (n + 1) WorkerPc.returned) true img false) := by
  have h : (List.replicate (n + 1) (WorkerPc.returned : WorkerPc F)).all WorkerPc.isReturned
      = true := by
    rw [List.all_eq_true]
    intro w hw
    rw [List.eq_of_mem_replicate hw]
    rfl
  have h2 : (List.replicate (n + 1) (WorkerPc.returned : WorkerPc F)).isEmpty = false := rfl
  simp [exec, step, stepMain, stepDrawer, h, h2]

/-- For every configuration with at least one worker there is an interleaving
in which `run` reaches its display loop. -/
theorem run_reaches_display (cabs : C → F) (cplx : F → F → C) (cfg : Config F)
    (h : 1 ≤ cfg.maxRoutines) :
    ∃ (sched : List Thread) (s : State F),
      exec cabs cplx cfg (initState cfg) sched = some s ∧ s.pc = MainPc.display := by
  obtain ⟨n, hn⟩ : ∃ n, cfg.maxRoutines = n + 1 := ⟨cfg.maxRoutines - 1, by omega⟩
  have hlen : (positions cfg).length ≤ cfg.allPixels := by
    rw [positions_length, Config.allPixels]
    exact Nat.mul_le_mul (Nat.sub_le _ _) (Nat.sub_le _ _)
  refine ⟨List.replicate (positions cfg).length Thread.main ++ ([Thread.main] ++
    (((positions cfg).flatMap fun _ => [Thread.worker 0, Thread.worker 0, Thread.drawer]) ++
      ((List.range' 0 (n + 1)).map Thread.worker ++
        [Thread.main, Thread.main, Thread.drawer, Thread.main]))),
    State.mk MainPc.display [] [] true [] true (List.replicate (n + 1) WorkerPc.returned) true
      (compositor (NewRGBA cfg.maxWidth cfg.maxHeight) ((positions cfg).map (worker cabs cplx cfg)))
      false, ?_, rfl⟩
  rw [exec_append, initState, hn]
  rw [exec_enqueue cabs cplx cfg _ _ (positions cfg) [] (by simpa using hlen)]
  simp only [Option.some_bind, List.nil_append]
  rw [exec_append]
  simp only [exec, step, stepMain, Option.some_bind]
  rw [exec_append, List.replicate_succ, exec_work cabs cplx cfg _ _ _ hlen]
  simp only [Option.some_bind]
  rw [exec_append]
  have := exec_return cabs cplx cfg
    (compositor (NewRGBA cfg.maxWidth cfg.maxHeight) ((positions cfg).map (worker cabs cplx cfg)))
    (n + 1) []
  simp only [List.nil_append, List.length_nil, List.replicate_succ] at this
  rw [this]
  simp only [Option.some_bind]
  exact exec_shutdown cabs cplx cfg _ n

end SchedulerProofs

/-- Witness for `run_shutdown_order`: under `demoConfig` the interleaving
`demoSchedule` runs through, ends in the display loop, and the state it ends
in has the properties of the theorem. -/
theorem run_shutdown_order_witness :
    ∃ s : State ℝ,
      exec (fun z : ℂ => Complex.abs z) Complex.mk demoConfig (initState demoConfig)
          demoSchedule = some s ∧
        s.pc = MainPc.display ∧ s.panicked = false ∧ s.drawerReturned = true ∧ s.results = [] ∧
        s.img = render (fun z : ℂ => Complex.abs z) Complex.mk demoConfig := by
  have hsome : (exec (fun z : ℂ => Complex.abs z) Complex.mk demoConfig (initState demoConfig)
      demoSchedule).isSome = true := by decide
  obtain ⟨s, hs⟩ := Option.isSome_iff_exists.mp hsome
  have hpc : Option.map State.pc (exec (fun z : ℂ => Complex.abs z) Complex.mk demoConfig
      (initState demoConfig) demoSchedule) = some MainPc.display := by decide
  rw [hs] at hpc
  have hpc2 : s.pc = MainPc.display := by simpa using hpc
  have h := run_shutdown_order (fun z : ℂ => Complex.abs z) Complex.mk demoConfig demoSchedule s hs
  exact ⟨s, hs, hpc2, h.2.2.2.1, h.2.2.2.2 hpc2⟩

/-- Witness for `compositor_order_independent`: the results of the program's
configuration arriving in reverse enumeration order. -/
theorem compositor_order_independent_witness :
    (allResults (fun z : ℂ => Complex.abs z) Complex.mk (defaultConfig ℝ)).reverse.Perm
        (allResults (fun z : ℂ => Complex.abs z) Complex.mk (defaultConfig ℝ)) ∧
      compositor (NewRGBA 1750 2000)
          (allResults (fun z : ℂ => Complex.abs z) Complex.mk (defaultConfig ℝ)).reverse =
        compositor (NewRGBA 1750 2000)
          (allResults (fun z : ℂ => Complex.abs z) Complex.mk (defaultConfig ℝ)) :=
  ⟨List.reverse_perm _,
    compositor_order_independent (fun z : ℂ => Complex.abs z) Complex.mk (defaultConfig ℝ)
      (NewRGBA 1750 2000) _ (List.reverse_perm _)⟩

/-- C5, evaluated at the program's configuration (a 1750 × 2000 buffer): the
cell `(0, 0)` is never enqueued, the compositor never writes it, and after all
results are drawn it still holds the zero bytes of the fresh image. -/
theorem cell_zero_never_written :
    position.mk 0 0 ∉ positions (defaultConfig ℝ) ∧
      writeCount (allResults (fun z : ℂ => Complex.abs z) Complex.mk (defaultConfig ℝ))
          (position.mk 0 0) = 0 ∧
      (render (fun z : ℂ => Complex.abs z) Complex.mk (defaultConfig ℝ)).pix (position.mk 0 0) =
        RGBA.mk 0 0 0 0 := by
  have h : position.mk 0 0 ∉ positions (defaultConfig ℝ) := by
    rw [mem_positions]
    norm_num
  refine ⟨h, ?_, ?_⟩
  · rw [writeCount_allResults]
    norm_num
  · exact render_pix_of_not_mem _ _ _ _ h

end Mandelbrot
